import Mathlib

/-!
Shallow embedding of crevice's std430 sequential writer
(`src/std430/writer.rs`).

The writer is generic over a sink `W : std::io::Write` and over the value
type `T : Std430`.  We model a sink as a bounded byte buffer that accepts
bytes while they fit within its capacity and otherwise reports a fixed
error value, which captures "append exact bytes, report failure"; and we
model a value of an `Std430` type by its `ALIGNMENT`, its `size_of::<T>()`,
and the byte sequence produced by `bytemuck::bytes_of`, which for a `Pod`
type yields exactly `size_of::<T>()` bytes (recorded as the field
`bytes_size`).  Bytes are `Nat`s; overflow of `usize` offsets is not
reachable within a sink's finite capacity.
-/

set_option autoImplicit false

namespace Std430

/-- A byte sink, modelling a concrete `std::io::Write` destination: the
bytes accepted so far, the total capacity, and the error value it reports
when bytes do not fit. -/
structure Sink where
  written : List Nat
  capacity : Nat
  errVal : Nat
  deriving Repr, DecidableEq

/-- `std::io::Write::write_all` on the modelled sink: append all the bytes,
or fail with the sink's error when they do not fit. -/
def Sink.write_all (s : Sink) (bytes : List Nat) : Except Nat Sink :=
  if s.written.length + bytes.length ≤ s.capacity then
    Except.ok { s with written := s.written ++ bytes }
  else
    Except.error s.errVal

/-- A value of some type `T : Std430`: the `T::ALIGNMENT` constant, the
`size_of::<T>()` constant, and the GPU-representation bytes
`bytemuck::bytes_of(&value.as_std430())`.  `bytes_size` records bytemuck's
guarantee that `bytes_of` on a `Pod` value returns `size_of::<T>()` bytes. -/
structure Std430Value where
  alignment : Nat
  size : Nat
  bytes : List Nat
  bytes_size : bytes.length = size

/-- Modelled from the spec: `crate::internal::align_offset` is imported by
`writer.rs` but its source file is not part of the sources; the spec defines
`padding_needed(current_offset, alignment)` as
`(alignment - current_offset % alignment) % alignment`. -/
def align_offset (offset alignment : Nat) : Nat :=
  (alignment - offset % alignment) % alignment

/-- `std430::Writer`: an exclusively owned sink plus the current offset. -/
structure Writer where
  sink : Sink
  offset : Nat
  deriving Repr, DecidableEq

/-- `Writer::new`: bind to a sink with offset `0`. -/
def Writer.new (s : Sink) : Writer :=
  { sink := s, offset := 0 }

/-- The `for _ in 0..padding { self.writer.write_all(&[0])?; }` loop of
`Writer::write_std430`: write `n` zero bytes one at a time, stopping at the
first error.  Returns the sink holding the bytes accepted so far, and the
error if one occurred. -/
def writeZeros (s : Sink) : Nat → Sink × Option Nat
  | 0 => (s, none)
  | Nat.succ n =>
    match s.write_all [0] with
    | Except.ok s' => writeZeros s' n
    | Except.error e => (s, some e)

/-- `Writer::write_std430`: compute the padding, emit that many zero bytes,
add the padding to the offset, emit the value's GPU-representation bytes,
and advance the offset by `size_of::<T>()`, returning the offset the value
was written at.  The updated writer is returned alongside the `io::Result`,
mirroring the `&mut self` receiver; `?` returns early with the state
reached so far. -/
def Writer.write_std430 (w : Writer) (v : Std430Value) : Writer × Except Nat Nat :=
  let padding := align_offset w.offset v.alignment
  match writeZeros w.sink padding with
  | (s, some e) => ({ w with sink := s }, Except.error e)
  | (s, none) =>
    let offset := w.offset + padding
    match s.write_all v.bytes with
    | Except.error e => ({ sink := s, offset := offset }, Except.error e)
    | Except.ok s' =>
      let write_here := offset
      ({ sink := s', offset := offset + v.size }, Except.ok write_here)

/-- `Writer::write`: for a value of a type `T : Std430`, the `WriteStd430`
implementation forwards to `Writer::write_std430`. -/
def Writer.write (w : Writer) (v : Std430Value) : Writer × Except Nat Nat :=
  w.write_std430 v

/-- A sequence of individual `write` calls, one per list element, stopping
at the first error and discarding the returned offsets.  This is also the
`for item in iter { item.write_std430(self)?; }` loop of
`Writer::write_iter`. -/
def writeSeq (w : Writer) : List Std430Value → Writer × Option Nat
  | [] => (w, none)
  | v :: rest =>
    match w.write_std430 v with
    | (w', Except.error e) => (w', some e)
    | (w', Except.ok _) => writeSeq w' rest

/-- `Writer::write_iter`: `offset` starts as the current offset, the first
item (if any) overwrites it with the offset it was written at, the
remaining items are written in order, and `offset` is returned. -/
def Writer.write_iter (w : Writer) (items : List Std430Value) : Writer × Except Nat Nat :=
  match items with
  | [] => (w, Except.ok w.offset)
  | first :: rest =>
    match w.write_std430 first with
    | (w', Except.error e) => (w', Except.error e)
    | (w', Except.ok offset) =>
      match writeSeq w' rest with
      | (w'', some e) => (w'', Except.error e)
      | (w'', none) => (w'', Except.ok offset)

/-- `Writer::len`: the amount of data written by this `Writer`. -/
def Writer.len (w : Writer) : Nat :=
  w.offset

/-- The padding-plus-size contribution of each value of a write sequence,
in call order, starting from the given offset. -/
def contributions (offset : Nat) : List Std430Value → Nat
  | [] => 0
  | v :: rest =>
    let p := align_offset offset v.alignment
    p + v.size + contributions (offset + p + v.size) rest

/-- Concrete 4-byte value (alignment 4), for witnesses. -/
def exVal : Std430Value :=
  { alignment := 4, size := 4, bytes := [1, 2, 3, 4], bytes_size := rfl }

/-- Concrete roomy sink, for witnesses. -/
def exSink : Sink :=
  { written := [9], capacity := 100, errVal := 7 }

/-- Concrete writer over `exSink` at offset 1, for witnesses. -/
def exWriter : Writer :=
  { sink := exSink, offset := 1 }

example : exWriter.write_std430 exVal =
    ({ sink := { written := [9, 0, 0, 0, 1, 2, 3, 4], capacity := 100, errVal := 7 },
       offset := 8 }, Except.ok 4) := rfl

example : (Writer.mk (Sink.mk [] 1 42) 1).write_std430 exVal =
    ({ sink := { written := [0], capacity := 1, errVal := 42 }, offset := 1 },
     Except.error 42) := rfl

/-! ### Characterization lemmas for the sink and the padding loop -/

theorem write_all_ok (s : Sink) (bs : List Nat) (s' : Sink)
    (h : s.write_all bs = Except.ok s') :
    s' = ⟨s.written ++ bs, s.capacity, s.errVal⟩
      ∧ s.written.length + bs.length ≤ s.capacity := by
  unfold Sink.write_all at h
  split at h
  next hc =>
    injection h with h
    subst h
    exact ⟨rfl, hc⟩
  next hc =>
    simp at h

theorem write_all_err (s : Sink) (bs : List Nat) (e : Nat)
    (h : s.write_all bs = Except.error e) :
    e = s.errVal ∧ s.capacity < s.written.length + bs.length := by
  unfold Sink.write_all at h
  split at h
  next hc => simp at h
  next hc =>
    injection h with h
    exact ⟨h.symm, by omega⟩

theorem writeZeros_none (n : Nat) (s s' : Sink)
    (h : writeZeros s n = (s', none)) :
    s' = ⟨s.written ++ List.replicate n 0, s.capacity, s.errVal⟩ := by
  induction n generalizing s with
  | zero =>
    simp only [writeZeros, Prod.mk.injEq] at h
    obtain ⟨rfl, -⟩ := h
    obtain ⟨w, c, e⟩ := s
    simp
  | succ n ih =>
    simp only [writeZeros] at h
    cases hw : s.write_all [0] with
    | ok s₂ =>
      rw [hw] at h
      dsimp only at h
      obtain ⟨hs₂, -⟩ := write_all_ok s [0] s₂ hw
      subst hs₂
      have h' := ih _ h
      rw [h']
      simp [List.replicate_succ]
    | error e =>
      rw [hw] at h
      dsimp only at h
      simp at h

theorem writeZeros_some (n : Nat) (s s' : Sink) (e : Nat)
    (h : writeZeros s n = (s', some e)) :
    e = s.errVal
      ∧ s.capacity < s.written.length + n
      ∧ ∃ j, j ≤ n ∧ s' = ⟨s.written ++ List.replicate j 0, s.capacity, s.errVal⟩ := by
  induction n generalizing s with
  | zero => simp [writeZeros] at h
  | succ n ih =>
    simp only [writeZeros] at h
    cases hw : s.write_all [0] with
    | ok s₂ =>
      rw [hw] at h
      dsimp only at h
      obtain ⟨hs₂, -⟩ := write_all_ok s [0] s₂ hw
      obtain ⟨he, hcap, j, hj, hs'⟩ := ih _ h
      subst hs₂
      refine ⟨he, by simp at hcap ⊢; omega, j + 1, by omega, ?_⟩
      rw [hs']
      simp [List.replicate_succ]
    | error e' =>
      rw [hw] at h
      dsimp only at h
      obtain ⟨he', hc⟩ := write_all_err s [0] e' hw
      simp only [Prod.mk.injEq, Option.some.injEq] at h
      obtain ⟨rfl, rfl⟩ := h
      refine ⟨he', by simp at hc; omega, 0, by omega, ?_⟩
      obtain ⟨w, c, er⟩ := s
      simp

theorem writeZeros_fits (n : Nat) (s s' : Sink) (hn : 0 < n)
    (h : writeZeros s n = (s', none)) :
    s.written.length + n ≤ s.capacity := by
  induction n generalizing s with
  | zero => omega
  | succ n ih =>
    simp only [writeZeros] at h
    cases hw : s.write_all [0] with
    | ok s₂ =>
      rw [hw] at h
      dsimp only at h
      obtain ⟨hs₂, hc⟩ := write_all_ok s [0] s₂ hw
      rcases Nat.eq_zero_or_pos n with hz | hp
      · subst hz
        simp at hc
        omega
      · have hfit := ih _ hp h
        subst hs₂
        simp at hfit hc
        omega
    | error e =>
      rw [hw] at h
      dsimp only at h
      simp at h

/-! ### Characterization of a single `write_std430` call -/

theorem write_std430_ok (w : Writer) (v : Std430Value) (w' : Writer) (r : Nat)
    (h : w.write_std430 v = (w', Except.ok r)) :
    w'.sink.written
        = w.sink.written ++ List.replicate (align_offset w.offset v.alignment) 0 ++ v.bytes
      ∧ w'.sink.capacity = w.sink.capacity
      ∧ w'.sink.errVal = w.sink.errVal
      ∧ w'.offset = w.offset + align_offset w.offset v.alignment + v.size
      ∧ r = w.offset + align_offset w.offset v.alignment := by
  simp only [Writer.write_std430] at h
  cases hz : writeZeros w.sink (align_offset w.offset v.alignment) with
  | mk s o =>
    rw [hz] at h
    cases o with
    | some e => simp at h
    | none =>
      dsimp only at h
      have hs := writeZeros_none _ _ _ hz
      cases hw : s.write_all v.bytes with
      | error e =>
        rw [hw] at h
        simp at h
      | ok s' =>
        rw [hw] at h
        dsimp only at h
        obtain ⟨hs', -⟩ := write_all_ok s v.bytes s' hw
        simp only [Prod.mk.injEq, Except.ok.injEq] at h
        obtain ⟨rfl, rfl⟩ := h
        subst hs
        subst hs'
        simp [List.append_assoc]

theorem write_std430_err (w : Writer) (v : Std430Value) (w' : Writer) (e : Nat)
    (h : w.write_std430 v = (w', Except.error e)) :
    e = w.sink.errVal
      ∧ (∃ j, j ≤ align_offset w.offset v.alignment
          ∧ w'.sink.written = w.sink.written ++ List.replicate j 0)
      ∧ (w'.offset = w.offset
          ∨ w'.offset = w.offset + align_offset w.offset v.alignment)
      ∧ w'.sink.capacity = w.sink.capacity
      ∧ w'.sink.errVal = w.sink.errVal := by
  simp only [Writer.write_std430] at h
  cases hz : writeZeros w.sink (align_offset w.offset v.alignment) with
  | mk s o =>
    rw [hz] at h
    cases o with
    | some e' =>
      dsimp only at h
      simp only [Prod.mk.injEq, Except.error.injEq] at h
      obtain ⟨rfl, rfl⟩ := h
      obtain ⟨he, -, j, hj, hs⟩ := writeZeros_some _ _ _ _ hz
      subst hs
      exact ⟨he, ⟨j, hj, rfl⟩, Or.inl rfl, rfl, rfl⟩
    | none =>
      dsimp only at h
      have hs := writeZeros_none _ _ _ hz
      cases hw : s.write_all v.bytes with
      | ok s' =>
        rw [hw] at h
        simp at h
      | error e' =>
        rw [hw] at h
        dsimp only at h
        simp only [Prod.mk.injEq, Except.error.injEq] at h
        obtain ⟨rfl, rfl⟩ := h
        obtain ⟨he', -⟩ := write_all_err s v.bytes e' hw
        subst hs
        exact ⟨he', ⟨align_offset w.offset v.alignment, Nat.le_refl _, rfl⟩,
          Or.inr rfl, rfl, rfl⟩

theorem write_std430_err_phase (w : Writer) (v : Std430Value) (w' : Writer) (e : Nat)
    (h : w.write_std430 v = (w', Except.error e)) :
    (w.sink.capacity < w.sink.written.length + align_offset w.offset v.alignment
        → w'.offset = w.offset)
      ∧ (w.sink.written.length + align_offset w.offset v.alignment ≤ w.sink.capacity
        → w'.offset = w.offset + align_offset w.offset v.alignment) := by
  simp only [Writer.write_std430] at h
  cases hz : writeZeros w.sink (align_offset w.offset v.alignment) with
  | mk s o =>
    rw [hz] at h
    cases o with
    | some e' =>
      dsimp only at h
      simp only [Prod.mk.injEq, Except.error.injEq] at h
      obtain ⟨rfl, rfl⟩ := h
      obtain ⟨-, hcap, -⟩ := writeZeros_some _ _ _ _ hz
      exact ⟨fun _ => rfl, fun hfit => absurd hfit (by omega)⟩
    | none =>
      dsimp only at h
      cases hw : s.write_all v.bytes with
      | ok s' =>
        rw [hw] at h
        simp at h
      | error e' =>
        rw [hw] at h
        dsimp only at h
        simp only [Prod.mk.injEq, Except.error.injEq] at h
        obtain ⟨rfl, rfl⟩ := h
        refine ⟨fun hover => ?_, fun _ => rfl⟩
        rcases Nat.eq_zero_or_pos (align_offset w.offset v.alignment) with hp | hp
        · simp [hp]
        · have := writeZeros_fits _ _ _ hp hz
          omega

/-! ### Arithmetic facts about `align_offset` -/

theorem align_offset_lt (offset a : Nat) (ha : 0 < a) :
    align_offset offset a < a :=
  Nat.mod_lt _ ha

theorem align_offset_add_mod (offset a : Nat) (ha : 0 < a) :
    (offset + align_offset offset a) % a = 0 := by
  unfold align_offset
  rcases Nat.eq_zero_or_pos (offset % a) with h | h
  · simp [h, Nat.mod_self]
  · have hlt : offset % a < a := Nat.mod_lt _ ha
    have h2 : a - offset % a < a := by omega
    have key : offset % a + (a - offset % a) = a := by omega
    calc (offset + (a - offset % a) % a) % a
        = (offset + (a - offset % a)) % a := by rw [Nat.mod_eq_of_lt h2]
      _ = (offset % a + (a - offset % a) % a) % a := by rw [Nat.add_mod]
      _ = (offset % a + (a - offset % a)) % a := by rw [Nat.mod_eq_of_lt h2]
      _ = a % a := by rw [key]
      _ = 0 := Nat.mod_self a

theorem align_offset_of_aligned (offset a : Nat) (h : offset % a = 0) :
    align_offset offset a = 0 := by
  unfold align_offset
  simp [h, Nat.mod_self]

/-! ### Sequences of write calls -/

theorem write_std430_extends (w : Writer) (v : Std430Value) (w' : Writer)
    (res : Except Nat Nat) (h : w.write_std430 v = (w', res)) :
    w.offset ≤ w'.offset ∧ ∃ t, w'.sink.written = w.sink.written ++ t := by
  cases res with
  | ok r =>
    obtain ⟨hwr, -, -, hoff, -⟩ := write_std430_ok _ _ _ _ h
    exact ⟨by omega, ⟨_, by rw [hwr, List.append_assoc]⟩⟩
  | error e =>
    obtain ⟨-, ⟨j, -, hwr⟩, hoff, -, -⟩ := write_std430_err _ _ _ _ h
    exact ⟨by rcases hoff with h1 | h1 <;> omega, ⟨_, hwr⟩⟩

theorem writeSeq_none_len (vs : List Std430Value) (w w' : Writer)
    (h : writeSeq w vs = (w', none)) :
    w'.offset = w.offset + contributions w.offset vs := by
  induction vs generalizing w with
  | nil =>
    simp only [writeSeq, Prod.mk.injEq] at h
    obtain ⟨rfl, -⟩ := h
    simp [contributions]
  | cons v rest ih =>
    simp only [writeSeq] at h
    cases hw : w.write_std430 v with
    | mk w₁ res =>
      rw [hw] at h
      cases res with
      | error e =>
        dsimp only at h
        simp at h
      | ok r =>
        dsimp only at h
        obtain ⟨-, -, -, hoff, -⟩ := write_std430_ok _ _ _ _ hw
        have ih' := ih _ h
        rw [hoff] at ih'
        simp only [contributions]
        omega

theorem writeSeq_extends (vs : List Std430Value) (w w' : Writer) (o : Option Nat)
    (h : writeSeq w vs = (w', o)) :
    w.offset ≤ w'.offset ∧ ∃ t, w'.sink.written = w.sink.written ++ t := by
  induction vs generalizing w with
  | nil =>
    simp only [writeSeq, Prod.mk.injEq] at h
    obtain ⟨rfl, -⟩ := h
    exact ⟨Nat.le_refl _, ⟨[], by simp⟩⟩
  | cons v rest ih =>
    simp only [writeSeq] at h
    cases hw : w.write_std430 v with
    | mk w₁ res =>
      rw [hw] at h
      cases res with
      | error e =>
        dsimp only at h
        simp only [Prod.mk.injEq] at h
        obtain ⟨rfl, -⟩ := h
        exact write_std430_extends _ _ _ _ hw
      | ok r =>
        dsimp only at h
        obtain ⟨h1, t₁, ht₁⟩ := write_std430_extends _ _ _ _ hw
        obtain ⟨h2, t₂, ht₂⟩ := ih _ h
        exact ⟨Nat.le_trans h1 h2, ⟨t₁ ++ t₂, by rw [ht₂, ht₁, List.append_assoc]⟩⟩

theorem write_iter_extends (w : Writer) (vs : List Std430Value) :
    w.offset ≤ ((w.write_iter vs).1).offset
      ∧ ∃ t, ((w.write_iter vs).1).sink.written = w.sink.written ++ t := by
  cases vs with
  | nil => exact ⟨Nat.le_refl _, ⟨[], by simp [Writer.write_iter]⟩⟩
  | cons v rest =>
    simp only [Writer.write_iter]
    cases hw : w.write_std430 v with
    | mk w₁ res =>
      cases res with
      | error e =>
        dsimp only
        exact write_std430_extends _ _ _ _ hw
      | ok r =>
        dsimp only
        obtain ⟨h1, t₁, ht₁⟩ := write_std430_extends _ _ _ _ hw
        cases hs : writeSeq w₁ rest with
        | mk w₂ o =>
          obtain ⟨h2, t₂, ht₂⟩ := writeSeq_extends _ _ _ _ hs
          cases o with
          | some e =>
            dsimp only
            exact ⟨Nat.le_trans h1 h2, ⟨t₁ ++ t₂, by rw [ht₂, ht₁, List.append_assoc]⟩⟩
          | none =>
            dsimp only
            exact ⟨Nat.le_trans h1 h2, ⟨t₁ ++ t₂, by rw [ht₂, ht₁, List.append_assoc]⟩⟩

theorem writeSeq_errVal (vs : List Std430Value) (w w' : Writer) (o : Option Nat)
    (h : writeSeq w vs = (w', o)) :
    w'.sink.errVal = w.sink.errVal := by
  induction vs generalizing w with
  | nil =>
    simp only [writeSeq, Prod.mk.injEq] at h
    obtain ⟨rfl, -⟩ := h
    rfl
  | cons v rest ih =>
    simp only [writeSeq] at h
    cases hw : w.write_std430 v with
    | mk w₁ res =>
      rw [hw] at h
      cases res with
      | error e =>
        dsimp only at h
        simp only [Prod.mk.injEq] at h
        obtain ⟨rfl, -⟩ := h
        exact (write_std430_err _ _ _ _ hw).2.2.2.2
      | ok r =>
        dsimp only at h
        rw [ih _ h, (write_std430_ok _ _ _ _ hw).2.2.1]

theorem writeSeq_append_err (done : List Std430Value) (w w₁ w₂ : Writer)
    (v : Std430Value) (rest : List Std430Value) (e : Nat)
    (hdone : writeSeq w done = (w₁, none))
    (hfail : w₁.write_std430 v = (w₂, Except.error e)) :
    writeSeq w (done ++ v :: rest) = (w₂, some e) := by
  induction done generalizing w with
  | nil =>
    simp only [writeSeq, Prod.mk.injEq] at hdone
    obtain ⟨rfl, -⟩ := hdone
    simp only [List.nil_append, writeSeq]
    rw [hfail]
  | cons d ds ih =>
    simp only [writeSeq] at hdone
    simp only [List.cons_append, writeSeq]
    cases hw : w.write_std430 d with
    | mk wd res =>
      rw [hw] at hdone
      cases res with
      | error e' =>
        dsimp only at hdone
        simp at hdone
      | ok r =>
        dsimp only at hdone
        exact ih _ hdone

theorem write_iter_cons_fst (w : Writer) (v : Std430Value) (rest : List Std430Value) :
    (w.write_iter (v :: rest)).1 = (writeSeq w (v :: rest)).1 := by
  simp only [Writer.write_iter, writeSeq]
  cases hw : w.write_std430 v with
  | mk w₁ res =>
    cases res with
    | error e => rfl
    | ok r =>
      dsimp only
      cases hs : writeSeq w₁ rest with
      | mk w₂ o =>
        cases o with
        | some e => rfl
        | none => rfl

/-! ### Concrete states for witnesses -/

/-- `exWriter` after successfully writing `exVal`. -/
def exWriterDone : Writer :=
  { sink := { written := [9, 0, 0, 0, 1, 2, 3, 4], capacity := 100, errVal := 7 },
    offset := 8 }

/-- `exWriterDone` after successfully writing `exVal` again. -/
def exWriterDone2 : Writer :=
  { sink := { written := [9, 0, 0, 0, 1, 2, 3, 4, 1, 2, 3, 4], capacity := 100, errVal := 7 },
    offset := 12 }

/-- A writer over a sink with room for one value but not two. -/
def exIterFailWriter : Writer :=
  { sink := { written := [], capacity := 8, errVal := 42 }, offset := 1 }

/-- `exIterFailWriter` after one successful write of `exVal`; the next
write of `exVal` fails on the value bytes and leaves this state. -/
def exIterMidWriter : Writer :=
  { sink := { written := [0, 0, 0, 1, 2, 3, 4], capacity := 8, errVal := 42 },
    offset := 8 }

/-- A writer over a sink with room for the padding but not the value bytes. -/
def exValFailWriter : Writer :=
  { sink := { written := [], capacity := 4, errVal := 9 }, offset := 1 }

/-- `exValFailWriter` after a failing write of `exVal`. -/
def exValFailedWriter : Writer :=
  { sink := { written := [0, 0, 0], capacity := 4, errVal := 9 }, offset := 4 }

/-! ### The claims -/

/-- C1: a single successful `write` first emits exactly
`padding_needed(offset, alignment)` zero bytes, then the value's
GPU-representation bytes, and advances the offset by exactly the padding
plus the number of bytes emitted; after any sequence of successful writes,
`len()` is the sum of each value's padding-plus-size contribution in call
order. -/
theorem write_emits_padding_then_value_and_tracks_len
    (w wa wb : Writer) (v : Std430Value) (r : Nat) (vs : List Std430Value)
    (h1 : w.write v = (wa, Except.ok r))
    (h2 : writeSeq w vs = (wb, none)) :
    wa.sink.written
        = w.sink.written
          ++ (List.replicate (align_offset w.offset v.alignment) 0 ++ v.bytes)
      ∧ wa.offset = w.offset + (align_offset w.offset v.alignment + v.bytes.length)
      ∧ wb.len = w.len + contributions w.offset vs := by
  obtain ⟨hwr, -, -, hoff, -⟩ := write_std430_ok _ _ _ _ h1
  refine ⟨by rw [hwr, List.append_assoc], ?_, writeSeq_none_len _ _ _ h2⟩
  rw [v.bytes_size]
  omega

theorem write_emits_padding_then_value_and_tracks_len_witness :
    exWriter.write exVal = (exWriterDone, Except.ok 4)
      ∧ writeSeq exWriter [exVal] = (exWriterDone, none)
      ∧ exWriterDone.sink.written
          = exWriter.sink.written
            ++ (List.replicate (align_offset exWriter.offset exVal.alignment) 0 ++ exVal.bytes)
      ∧ exWriterDone.offset
          = exWriter.offset + (align_offset exWriter.offset exVal.alignment + exVal.bytes.length)
      ∧ exWriterDone.len = exWriter.len + contributions exWriter.offset [exVal] :=
  ⟨rfl, rfl,
    write_emits_padding_then_value_and_tracks_len exWriter exWriterDone exWriterDone
      exVal 4 [exVal] rfl rfl⟩

/-- C2: for every offset and power-of-two alignment, `padding_needed` equals
`(alignment - offset % alignment) % alignment`, lies in `[0, alignment)`,
advances the offset to a multiple of the alignment, and is `0` whenever the
offset is already aligned. -/
theorem padding_needed_bounds (offset a k : Nat) (hpow : a = 2 ^ k) :
    align_offset offset a = (a - offset % a) % a
      ∧ align_offset offset a < a
      ∧ (offset + align_offset offset a) % a = 0
      ∧ (offset % a = 0 → align_offset offset a = 0) := by
  have ha : 0 < a := hpow ▸ pow_pos (by norm_num) k
  exact ⟨rfl, align_offset_lt _ _ ha, align_offset_add_mod _ _ ha,
    align_offset_of_aligned _ _⟩

theorem padding_needed_bounds_witness :
    (4 : Nat) = 2 ^ 2
      ∧ (align_offset 5 4 = (4 - 5 % 4) % 4
          ∧ align_offset 5 4 < 4
          ∧ (5 + align_offset 5 4) % 4 = 0
          ∧ (5 % 4 = 0 → align_offset 5 4 = 0)) :=
  ⟨by norm_num, padding_needed_bounds 5 4 2 (by norm_num)⟩

/-- C3: a successful `write` returns the offset the value's first byte was
written at: the pre-call offset plus the padding inserted by that call,
which is a multiple of the value's `ALIGNMENT`. -/
theorem write_returns_aligned_offset (w w₁ : Writer) (v : Std430Value) (r k : Nat)
    (hpow : v.alignment = 2 ^ k)
    (hsync : w.offset = w.sink.written.length)
    (h : w.write v = (w₁, Except.ok r)) :
    r = w.offset + align_offset w.offset v.alignment
      ∧ r % v.alignment = 0
      ∧ w₁.sink.written.drop r = v.bytes := by
  have ha : 0 < v.alignment := hpow ▸ pow_pos (by norm_num) k
  obtain ⟨hwr, -, -, -, hr⟩ := write_std430_ok _ _ _ _ h
  refine ⟨hr, ?_, ?_⟩
  · rw [hr]
    exact align_offset_add_mod _ _ ha
  · rw [hwr]
    have hlen : (w.sink.written
        ++ List.replicate (align_offset w.offset v.alignment) 0).length = r := by
      simp only [List.length_append, List.length_replicate]
      omega
    rw [← hlen, List.drop_left]

theorem write_returns_aligned_offset_witness :
    exVal.alignment = 2 ^ 2
      ∧ exWriter.offset = exWriter.sink.written.length
      ∧ exWriter.write exVal = (exWriterDone, Except.ok 4)
      ∧ (4 = exWriter.offset + align_offset exWriter.offset exVal.alignment
          ∧ 4 % exVal.alignment = 0
          ∧ exWriterDone.sink.written.drop 4 = exVal.bytes) :=
  ⟨rfl, rfl, rfl, write_returns_aligned_offset exWriter exWriterDone exVal 4 2 rfl rfl rfl⟩

/-- C4: on a non-empty iterator, `write_iter` applies the single-value write
logic to each item in order — its final writer state (sink bytes and offset)
is that of the corresponding sequence of individual write calls — and
returns the offset at which the first item was written. -/
theorem write_iter_matches_individual_writes (w w₁ w₂ : Writer) (v : Std430Value)
    (rest : List Std430Value) (r : Nat)
    (h1 : w.write_std430 v = (w₁, Except.ok r))
    (h2 : writeSeq w₁ rest = (w₂, none)) :
    (∀ vs : List Std430Value, (w.write_iter (v :: vs)).1 = (writeSeq w (v :: vs)).1)
      ∧ w.write_iter (v :: rest) = (w₂, Except.ok r)
      ∧ r = w.offset + align_offset w.offset v.alignment := by
  refine ⟨fun vs => write_iter_cons_fst w v vs, ?_,
    (write_std430_ok _ _ _ _ h1).2.2.2.2⟩
  simp only [Writer.write_iter]
  rw [h1]
  dsimp only
  rw [h2]

theorem write_iter_matches_individual_writes_witness :
    exWriter.write_std430 exVal = (exWriterDone, Except.ok 4)
      ∧ writeSeq exWriterDone [exVal] = (exWriterDone2, none)
      ∧ (exWriter.write_iter (exVal :: [exVal])).1
          = (writeSeq exWriter (exVal :: [exVal])).1
      ∧ exWriter.write_iter (exVal :: [exVal]) = (exWriterDone2, Except.ok 4)
      ∧ 4 = exWriter.offset + align_offset exWriter.offset exVal.alignment :=
  ⟨rfl, rfl,
    (write_iter_matches_individual_writes exWriter exWriterDone exWriterDone2
      exVal [exVal] 4 rfl rfl).1 [exVal],
    (write_iter_matches_individual_writes exWriter exWriterDone exWriterDone2
      exVal [exVal] 4 rfl rfl).2.1,
    (write_iter_matches_individual_writes exWriter exWriterDone exWriterDone2
      exVal [exVal] 4 rfl rfl).2.2⟩

/-- C5: `write_iter` on an empty iterator never errors, leaves the writer
(offset and sink) unchanged, and returns the pre-call offset `len()`. -/
theorem write_iter_empty_noop (w : Writer) :
    w.write_iter [] = (w, Except.ok w.len) := rfl

/-- C6: every padding byte a `write` call emits is the literal zero byte:
whatever bytes the call manages to append to the sink are an initial run of
at most `padding` zeros, optionally followed (only after all `padding`
zeros) by the value's own bytes. -/
theorem write_padding_bytes_are_zero (w : Writer) (v : Std430Value) :
    (∃ j, j ≤ align_offset w.offset v.alignment
        ∧ ((w.write_std430 v).1).sink.written
            = w.sink.written ++ List.replicate j 0)
      ∨ ((w.write_std430 v).1).sink.written
          = w.sink.written
            ++ List.replicate (align_offset w.offset v.alignment) 0 ++ v.bytes := by
  rcases hw : w.write_std430 v with ⟨w', res⟩
  cases res with
  | ok r =>
    right
    exact (write_std430_ok _ _ _ _ hw).1
  | error e =>
    left
    exact (write_std430_err _ _ _ _ hw).2.1

/-- C7: a newly created writer has offset `0`; across any `write` or
`write_iter` call, successful or failed, the offset never decreases and the
call only appends to the sink, so bytes reach the sink in call order
(`len` is a pure observer and touches neither). -/
theorem writer_monotone_append_only (s : Sink) (w : Writer) (v : Std430Value)
    (vs : List Std430Value) :
    (Writer.new s).offset = 0
      ∧ w.offset ≤ ((w.write_std430 v).1).offset
      ∧ w.offset ≤ ((w.write_iter vs).1).offset
      ∧ (∃ t, ((w.write_std430 v).1).sink.written = w.sink.written ++ t)
      ∧ (∃ t, ((w.write_iter vs).1).sink.written = w.sink.written ++ t) := by
  obtain ⟨h1, h2⟩ :=
    write_std430_extends w v (w.write_std430 v).1 (w.write_std430 v).2 rfl
  obtain ⟨h3, h4⟩ := write_iter_extends w vs
  exact ⟨rfl, h1, h3, h2, h4⟩

/-- C8: when the sink rejects a byte at any position of the sequence — the
items in `done` succeed and the next item `v` fails — the call returns the
sink's own error to the caller (never retried or swallowed), and both the
individual-write sequence and `write_iter` stop at the failure state
without attempting any of the items in `rest`. -/
theorem write_error_propagates (w w₁ w₂ : Writer) (v : Std430Value)
    (done rest : List Std430Value) (e : Nat)
    (hdone : writeSeq w done = (w₁, none))
    (h : w₁.write v = (w₂, Except.error e)) :
    e = w.sink.errVal
      ∧ writeSeq w (done ++ v :: rest) = (w₂, some e)
      ∧ w.write_iter (done ++ v :: rest) = (w₂, Except.error e) := by
  have h' : w₁.write_std430 v = (w₂, Except.error e) := h
  have he : e = w.sink.errVal := by
    rw [(write_std430_err _ _ _ _ h').1, writeSeq_errVal _ _ _ _ hdone]
  refine ⟨he, writeSeq_append_err done w w₁ w₂ v rest e hdone h', ?_⟩
  cases done with
  | nil =>
    simp only [writeSeq, Prod.mk.injEq] at hdone
    obtain ⟨rfl, -⟩ := hdone
    simp only [List.nil_append, Writer.write_iter]
    rw [h']
  | cons d ds =>
    simp only [writeSeq] at hdone
    simp only [List.cons_append, Writer.write_iter]
    cases hw : w.write_std430 d with
    | mk wd res =>
      rw [hw] at hdone
      cases res with
      | error e' =>
        dsimp only at hdone
        simp at hdone
      | ok r =>
        dsimp only at hdone
        dsimp only
        rw [writeSeq_append_err ds wd w₁ w₂ v rest e hdone h']

theorem write_error_propagates_witness :
    writeSeq exIterFailWriter [exVal] = (exIterMidWriter, none)
      ∧ exIterMidWriter.write exVal = (exIterMidWriter, Except.error 42)
      ∧ (42 = exIterFailWriter.sink.errVal
          ∧ writeSeq exIterFailWriter ([exVal] ++ exVal :: [exVal])
              = (exIterMidWriter, some 42)
          ∧ exIterFailWriter.write_iter ([exVal] ++ exVal :: [exVal])
              = (exIterMidWriter, Except.error 42)) :=
  ⟨rfl, rfl,
    write_error_propagates exIterFailWriter exIterMidWriter exIterMidWriter
      exVal [exVal] [exVal] 42 rfl rfl⟩

/-- C9: `len()` returns the writer's current offset and is a pure observer;
a successful write advances `len()` by exactly the number of bytes it
appended to the sink (padding plus value bytes). -/
theorem len_reports_offset (w w₁ : Writer) (v : Std430Value) (r : Nat)
    (h : w.write v = (w₁, Except.ok r)) :
    w.len = w.offset
      ∧ w₁.len = w₁.offset
      ∧ w₁.len = w.len + (align_offset w.offset v.alignment + v.size)
      ∧ w₁.sink.written.length
          = w.sink.written.length + (align_offset w.offset v.alignment + v.size) := by
  obtain ⟨hwr, -, -, hoff, -⟩ := write_std430_ok _ _ _ _ h
  refine ⟨rfl, rfl, by unfold Writer.len; omega, ?_⟩
  rw [hwr]
  simp only [List.length_append, List.length_replicate, v.bytes_size]
  omega

theorem len_reports_offset_witness :
    exWriter.write exVal = (exWriterDone, Except.ok 4)
      ∧ (exWriter.len = exWriter.offset
          ∧ exWriterDone.len = exWriterDone.offset
          ∧ exWriterDone.len
              = exWriter.len + (align_offset exWriter.offset exVal.alignment + exVal.size)
          ∧ exWriterDone.sink.written.length
              = exWriter.sink.written.length
                + (align_offset exWriter.offset exVal.alignment + exVal.size)) :=
  ⟨rfl, len_reports_offset exWriter exWriterDone exVal 4 rfl⟩

/-- C10: when a `write` call fails, the offset records where the failure
happened: a rejected padding byte leaves `len()` unchanged, while a
rejection of the value's own bytes leaves `len()` advanced by exactly the
padding amount. -/
theorem write_failure_offset (w w₁ : Writer) (v : Std430Value) (e : Nat)
    (h : w.write v = (w₁, Except.error e)) :
    (w.sink.capacity < w.sink.written.length + align_offset w.offset v.alignment
        → w₁.len = w.len)
      ∧ (w.sink.written.length + align_offset w.offset v.alignment ≤ w.sink.capacity
        → w₁.len = w.len + align_offset w.offset v.alignment) :=
  write_std430_err_phase w v w₁ e h

theorem write_failure_offset_witness :
    exValFailWriter.write exVal = (exValFailedWriter, Except.error 9)
      ∧ ((exValFailWriter.sink.capacity
            < exValFailWriter.sink.written.length
              + align_offset exValFailWriter.offset exVal.alignment
          → exValFailedWriter.len = exValFailWriter.len)
        ∧ (exValFailWriter.sink.written.length
              + align_offset exValFailWriter.offset exVal.alignment
              ≤ exValFailWriter.sink.capacity
          → exValFailedWriter.len = exValFailWriter.len
              + align_offset exValFailWriter.offset exVal.alignment)) :=
  ⟨rfl, write_failure_offset exValFailWriter exValFailedWriter exVal 9 rfl⟩

end Std430
